import Mathlib

/-!
Shallow embedding of the BeeLight adaptive-binning brightness model
(`src/model.py`, classes `DataPoint`, `WeightedDataPoint`, `AdaptiveBin`,
`EnhancedBrightnessModel`).

Conventions of the embedding:
* Python `int` becomes `Int` (list lengths and indices that are provably
  nonnegative become `Nat`); Python `float` becomes `Rat` (the model only
  performs field arithmetic and comparisons on its floats, so exact
  rational arithmetic is the intended idealisation).
* Python floor division `//` becomes `Int.fdiv` (both round toward
  negative infinity); Nat-valued index computations use `Nat` division,
  which agrees with Python `//` on nonnegative operands.
* `time.localtime` is modelled as UTC (timezone offset 0): the hour of a
  timestamp is `(timestamp % 86400) / 3600` with Euclidean `%`.
* Mutation becomes state passing: methods return the updated object;
  `predict` returns the pair (optional result, updated model).
* Python `None` results become `Option.none`.
-/

structure DataPoint where
  timestamp : Int
  ambient_light : Int
  screen_brightness : Int
  is_manual_adjustment : Bool
deriving DecidableEq

structure WeightedDataPoint where
  brightness : Int
  weight : Rat
  timestamp : Int
deriving DecidableEq

structure AdaptiveBin where
  min_value : Int
  max_value : Int
  points : List WeightedDataPoint
  total_weight : Rat
  max_points : Nat
deriving DecidableEq

/-- Constructor `AdaptiveBin.__init__` with the default `max_points = 50`. -/
def mkAdaptiveBin (min_value max_value : Int) : AdaptiveBin :=
  { min_value := min_value, max_value := max_value, points := [],
    total_weight := 0, max_points := 50 }

/-- The loop of `AdaptiveBin.update` that locates the sample of minimum
weight: running state is (remaining list, next index `i`, best index,
best weight); the best is replaced only on a strictly smaller weight, so
the first minimum in insertion order wins. -/
def minWeightIdxAux : List WeightedDataPoint → Nat → Nat → Rat → Nat
  | [], _, bestIdx, _ => bestIdx
  | p :: rest, i, bestIdx, bestW =>
    if p.weight < bestW then minWeightIdxAux rest (i + 1) i p.weight
    else minWeightIdxAux rest (i + 1) bestIdx bestW

/-- Index of the first sample of minimum weight (`min_weight_idx` in
`AdaptiveBin.update`); `0` on the empty list. -/
def minWeightIdx : List WeightedDataPoint → Nat
  | [] => 0
  | p :: rest => minWeightIdxAux rest 1 0 p.weight

/-- Default sample used with `List.getD` (never actually selected at
in-range indices). -/
def defPoint : WeightedDataPoint := { brightness := 0, weight := 0, timestamp := 0 }

/-- `AdaptiveBin.update`: append the new weighted sample, add its weight
to `total_weight`; if the count now exceeds `max_points`, remove the
first sample of minimum weight and subtract its weight. -/
def AdaptiveBin.update (b : AdaptiveBin) (brightness : Int) (weight : Rat)
    (timestamp : Int) : AdaptiveBin :=
  let pts := b.points ++ [{ brightness := brightness, weight := weight, timestamp := timestamp }]
  let tw := b.total_weight + weight
  if pts.length > b.max_points then
    let idx := minWeightIdx pts
    let removed := pts.getD idx defPoint
    { b with points := pts.eraseIdx idx, total_weight := tw - removed.weight }
  else
    { b with points := pts, total_weight := tw }

/-- `AdaptiveBin.get_weighted_average`: weighted mean brightness, or
`none` when the bin is empty or `total_weight = 0`. -/
def AdaptiveBin.get_weighted_average (b : AdaptiveBin) : Option Rat :=
  if b.points = [] ∨ b.total_weight = 0 then none
  else some ((b.points.map (fun p => (p.brightness : Rat) * p.weight)).sum / b.total_weight)

/-- `AdaptiveBin.cleanup`: rebuild the sample list keeping exactly the
samples of age at most `max_age_seconds`, accumulating the new total
weight along the way (mirrors the source loop). -/
def AdaptiveBin.cleanup (b : AdaptiveBin) (current_timestamp max_age_seconds : Int) :
    AdaptiveBin :=
  let step := fun (acc : List WeightedDataPoint × Rat) (point : WeightedDataPoint) =>
    let age := current_timestamp - point.timestamp
    if age ≤ max_age_seconds then (acc.1 ++ [point], acc.2 + point.weight) else acc
  let r := b.points.foldl step ([], 0)
  { b with points := r.1, total_weight := r.2 }

structure TimeFeatures where
  hour : Int
  is_day : Bool
deriving DecidableEq

/-- `TimeFeatures.from_timestamp`, with `time.localtime` modelled at UTC:
hour of day from the timestamp, `is_day` iff `6 ≤ hour < 18`. -/
def TimeFeatures.from_timestamp (timestamp : Int) : TimeFeatures :=
  let hour := (timestamp % 86400) / 3600
  { hour := hour, is_day := decide (6 ≤ hour ∧ hour < 18) }

structure EnhancedBrightnessModel where
  ambient_bins : List AdaptiveBin
  time_weight : Rat
  recency_weight : Rat
  activity_weight : Rat
  /-- The 3-slot smoothing deque, oldest first. -/
  last_predictions : List Rat
  max_age_seconds : Int
deriving DecidableEq

/-- `EnhancedBrightnessModel.__init__`: `none` models the `ValueError`
on `bin_count ≤ 0` or `min_ambient ≥ max_ambient`; otherwise bins of
equal width `(max_ambient - min_ambient) // bin_count`, the last bin's
upper bound forced to `max_ambient`. -/
def mkModel (min_ambient max_ambient : Int) (bin_count : Nat)
    (time_weight recency_weight activity_weight : Rat) : Option EnhancedBrightnessModel :=
  if bin_count = 0 ∨ min_ambient ≥ max_ambient then none
  else
    let bin_size := (max_ambient - min_ambient).fdiv bin_count
    let bins := (List.range bin_count).map (fun i : Nat =>
      let bin_min := min_ambient + (i : Int) * bin_size
      let bin_max := if i = bin_count - 1 then max_ambient else bin_min + bin_size
      mkAdaptiveBin bin_min bin_max)
    some { ambient_bins := bins, time_weight := time_weight,
           recency_weight := recency_weight, activity_weight := activity_weight,
           last_predictions := [], max_age_seconds := 7 * 24 * 3600 }

/-- Stable insertion of `x` into a list sorted by the integer key `k`:
`x` is placed before the first element of key not smaller than its own,
so earlier elements win ties. -/
def insertByKey {A : Type} (k : A → Int) (x : A) : List A → List A
  | [] => [x]
  | y :: ys => if k x ≤ k y then x :: y :: ys else y :: insertByKey k x ys

/-- Stable insertion sort by an integer key.  Python `sorted` is a
stable sort, and a stable sort by a given key is unique, so this models
`sorted(..., key=...)` exactly (and, unlike a well-founded merge sort,
it evaluates inside the kernel). -/
def sortByKey {A : Type} (k : A → Int) : List A → List A
  | [] => []
  | x :: xs => insertByKey k x (sortByKey k xs)

/-- Inner loop of `_find_last_point_in_bins`: Python
`max(points, key=timestamp)` keeps the first sample attaining the
maximal timestamp. -/
def maxTsPoint : List WeightedDataPoint → WeightedDataPoint → WeightedDataPoint
  | [], acc => acc
  | p :: rest, acc => maxTsPoint rest (if p.timestamp > acc.timestamp then p else acc)

/-- `EnhancedBrightnessModel._find_last_point_in_bins`: scan the bins for
the most recent sample (latest timestamp, initialised to `-1`),
approximating its ambient value by the containing bin's midpoint. -/
def findLastPointInBins (m : EnhancedBrightnessModel) : Option DataPoint :=
  let step := fun (acc : Int × Option (Int × Int × Int)) (b : AdaptiveBin) =>
    match b.points with
    | [] => acc
    | p :: rest =>
      let lastP := maxTsPoint rest p
      if lastP.timestamp > acc.1 then
        (lastP.timestamp, some (lastP.timestamp, (b.min_value + b.max_value).fdiv 2, lastP.brightness))
      else acc
  let r := m.ambient_bins.foldl step (-1, none)
  r.2.map (fun info =>
    { timestamp := info.1, ambient_light := info.2.1,
      screen_brightness := info.2.2, is_manual_adjustment := true })

/-- `EnhancedBrightnessModel._is_outlier`: a point is an outlier relative
to the last point when the brightness jump exceeds 80 or the ambient
jump exceeds 1200; never an outlier without a last point. -/
def isOutlier (new_point : DataPoint) (last_point : Option DataPoint) : Bool :=
  match last_point with
  | none => false
  | some lp =>
    decide (80 < |new_point.screen_brightness - lp.screen_brightness|) ||
    decide (1200 < |new_point.ambient_light - lp.ambient_light|)

/-- Python `max` on two floats (returns the first argument on ties),
written out so that it evaluates inside the kernel. -/
def pyMax (a b : Rat) : Rat := if b ≤ a then a else b

/-- Python `min` on two floats (returns the first argument on ties). -/
def pyMin (a b : Rat) : Rat := if a ≤ b then a else b

/-- `EnhancedBrightnessModel._calculate_weight`: additive blend of the
day-phase match, the linear recency decay (clamped at 0) and the
activity state. -/
def EnhancedBrightnessModel.calculate_weight (m : EnhancedBrightnessModel)
    (current_time_features point_time_features : TimeFeatures)
    (time_diff_seconds : Int) (is_active : Bool) : Rat :=
  let time_similarity : Rat :=
    if current_time_features.is_day = point_time_features.is_day then 1 else 1/5
  let time_weight_component := m.time_weight * time_similarity
  let age_factor := pyMax (1 - (time_diff_seconds : Rat) / (m.max_age_seconds : Rat)) 0
  let recency_weight_component := m.recency_weight * age_factor
  let activity_similarity : Rat := if is_active then 1 else 1/2
  let activity_weight_component := m.activity_weight * activity_similarity
  time_weight_component + recency_weight_component + activity_weight_component

/-- The bin-lookup loop shared by `train` and `predict`: first index `i`
whose bin satisfies `min ≤ x < max`, the last bin also accepting
`x ≥ min`.  (`predict` compares `float(x)` with the same integer bounds,
which coincides with the integer comparison.) -/
def findBinIdx (bins : List AdaptiveBin) (x : Int) : Option Nat :=
  (bins.enum.find? (fun ib =>
    decide (ib.2.min_value ≤ x ∧ x < ib.2.max_value) ||
    (decide (ib.1 = bins.length - 1) && decide (x ≥ ib.2.min_value)))).map (fun ib => ib.1)

/-- `EnhancedBrightnessModel.train`: no-op unless the observation is a
manual adjustment and not an outlier; otherwise weight the observation
and update the bin found by lookup (no-op when lookup fails). -/
def EnhancedBrightnessModel.train (m : EnhancedBrightnessModel) (data_point : DataPoint)
    (current_timestamp : Int) (is_active : Bool) : EnhancedBrightnessModel :=
  if data_point.is_manual_adjustment then
    let last_point := findLastPointInBins m
    if isOutlier data_point last_point then m
    else
      let current_time_features := TimeFeatures.from_timestamp current_timestamp
      let point_time_features := TimeFeatures.from_timestamp data_point.timestamp
      let time_diff := max 0 (current_timestamp - data_point.timestamp)
      let weight := m.calculate_weight current_time_features point_time_features time_diff is_active
      match findBinIdx m.ambient_bins data_point.ambient_light with
      | none => m
      | some i =>
        { m with ambient_bins := m.ambient_bins.enum.map (fun ib =>
            if ib.1 = i then
              ib.2.update data_point.screen_brightness weight data_point.timestamp
            else ib.2) }
  else m

/-- The neighbor search in `predict` when the main bin is empty: for
offsets `d = 1, 2, ...` check the lower neighbor `i - d` before the
upper neighbor `i + d`, returning the first non-empty weighted
average. -/
def firstNeighborPred (bins : List AdaptiveBin) (main_bin_index : Nat) : Option Rat :=
  (List.range' 1 (bins.length - 1)).findSome? (fun d =>
    let prev :=
      if main_bin_index ≥ d then
        (bins.get? (main_bin_index - d)).bind AdaptiveBin.get_weighted_average
      else none
    match prev with
    | some v => some v
    | none =>
      if main_bin_index + d < bins.length then
        (bins.get? (main_bin_index + d)).bind AdaptiveBin.get_weighted_average
      else none)

/-- Append to the 3-slot deque `last_predictions`
(`deque(maxlen=3).append`): the oldest entry is dropped when full. -/
def pushWindow (w : List Rat) (v : Rat) : List Rat :=
  let w2 := w ++ [v]
  if w2.length > 3 then w2.drop 1 else w2

/-- The value-computation part of `EnhancedBrightnessModel.predict`, up
to the interpolated `adjusted_prediction`: bin lookup, weighted average
(with the neighbor fallback when the main bin is empty), day/activity
adjustment and boundary interpolation.  The two Python `return None`
statements of `predict` (no bin found; all bins empty) both occur in
this part, before the smoothing window is touched. -/
def predictRaw (m : EnhancedBrightnessModel) (ambient_light : Int)
    (timestamp : Int) (is_active : Bool) : Option Rat :=
  match findBinIdx m.ambient_bins ambient_light with
  | none => none
  | some main_bin_index =>
    match m.ambient_bins.get? main_bin_index with
    | none => none
    | some main_bin =>
      let first_try := main_bin.get_weighted_average
      let main_prediction? :=
        match first_try with
        | some v => some v
        | none => firstNeighborPred m.ambient_bins main_bin_index
      match main_prediction? with
      | none => none
      | some main_prediction =>
        let time_features := TimeFeatures.from_timestamp timestamp
        let time_factor : Rat := if time_features.is_day then 1 else 4/5
        let activity_factor : Rat := if is_active then 1 else 9/10
        let adjusted_prediction := main_prediction * time_factor * activity_factor
        let bin_range : Rat := ((main_bin.max_value - main_bin.min_value : Int) : Rat)
        let position_in_bin : Rat :=
          if bin_range > 0 then ((ambient_light - main_bin.min_value : Int) : Rat) / bin_range
          else 1/2
        let interpolation_threshold : Rat := 1/5
        let neighbor : Option Rat × Rat :=
          if position_in_bin < interpolation_threshold ∧ 0 < main_bin_index then
            match (m.ambient_bins.get? (main_bin_index - 1)).bind AdaptiveBin.get_weighted_average with
            | some np =>
              (some (np * time_factor * activity_factor),
               (interpolation_threshold - position_in_bin) / interpolation_threshold)
            | none => (none, 0)
          else if position_in_bin > 1 - interpolation_threshold ∧
              main_bin_index < m.ambient_bins.length - 1 then
            match (m.ambient_bins.get? (main_bin_index + 1)).bind AdaptiveBin.get_weighted_average with
            | some np =>
              (some (np * time_factor * activity_factor),
               (position_in_bin - (1 - interpolation_threshold)) / interpolation_threshold)
            | none => (none, 0)
          else (none, 0)
        some (match neighbor.1 with
          | some np =>
            if 0 < neighbor.2 ∧ neighbor.2 ≤ 1 then
              adjusted_prediction * (1 - neighbor.2) + np * neighbor.2
            else adjusted_prediction
          | none => adjusted_prediction)

/-- `EnhancedBrightnessModel.predict`: the raw interpolated value (or the
early `None` exits) followed by the sliding-average smoothing - push the
value into the 3-slot window, average the window, clamp to `[0, 100]`.
Returns the optional prediction together with the updated model; the
model is unchanged on the `None` paths, which all precede the window
push in the source. -/
def EnhancedBrightnessModel.predict (m : EnhancedBrightnessModel) (ambient_light : Int)
    (timestamp : Int) (is_active : Bool) : Option Rat × EnhancedBrightnessModel :=
  match predictRaw m ambient_light timestamp is_active with
  | none => (none, m)
  | some adjusted_prediction =>
    let window := pushWindow m.last_predictions adjusted_prediction
    let smoothed_prediction :=
      if window = [] then adjusted_prediction else window.sum / (window.length : Rat)
    let final_prediction := pyMax 0 (pyMin 100 smoothed_prediction)
    (some final_prediction, { m with last_predictions := window })

/-- One iteration of the `adapt_bins` loop for bin `i`: quantile indices
into the sorted ambient list, the skip guard, the boundary assignment
(last bin's max forced to the global maximum), and the degenerate-range
repair that extends `max` to the next sorted value when possible. -/
def adaptBinStep (ambient_list : List Int) (bin_count : Nat) (i : Nat) (b : AdaptiveBin) :
    AdaptiveBin :=
  let L := ambient_list.length
  let start_idx : Int := ((i * L) / bin_count : Nat)
  let end_idx : Int := min ((((i + 1) * L) / bin_count : Nat) - 1 : Int) ((L : Int) - 1)
  if start_idx ≥ (L : Int) ∨ end_idx < 0 ∨ start_idx > end_idx then b
  else
    let new_min := ambient_list.getD start_idx.toNat 0
    let new_max :=
      if i = bin_count - 1 then ambient_list.getD (L - 1) 0
      else ambient_list.getD end_idx.toNat 0
    let b1 := { b with min_value := new_min, max_value := new_max }
    if b1.min_value ≥ b1.max_value ∧ i < bin_count - 1 then
      if end_idx + 1 < (L : Int) then
        { b1 with max_value := ambient_list.getD (end_idx + 1).toNat 0 }
      else b1
    else b1

/-- `EnhancedBrightnessModel.adapt_bins`: no-op when the history holds
fewer than `2 * bin_count` points; otherwise recompute every bin's
boundaries from the sorted ambient-light values. -/
def EnhancedBrightnessModel.adapt_bins (m : EnhancedBrightnessModel)
    (historical_data : List DataPoint) : EnhancedBrightnessModel :=
  if historical_data.length < m.ambient_bins.length * 2 then m
  else
    let ambient_list := sortByKey (fun a => a) (historical_data.map (fun d => d.ambient_light))
    let bin_count := m.ambient_bins.length
    { m with ambient_bins := m.ambient_bins.enum.map (fun ib =>
        adaptBinStep ambient_list bin_count ib.1 ib.2) }

/-- `EnhancedBrightnessModel.cleanup`: clean every bin with the model's
`max_age_seconds`. -/
def EnhancedBrightnessModel.cleanup (m : EnhancedBrightnessModel)
    (current_timestamp : Int) : EnhancedBrightnessModel :=
  { m with ambient_bins := m.ambient_bins.map (fun b =>
      b.cleanup current_timestamp m.max_age_seconds) }

/-- `EnhancedBrightnessModel.load_historical_data`: adapt the bins to the
history, then train on each point in timestamp order (stable sort by
timestamp), passing the point's own timestamp as
"now" and `is_active = true`; the `current_timestamp` and `is_active`
arguments are ignored. -/
def EnhancedBrightnessModel.load_historical_data (m : EnhancedBrightnessModel)
    (data_points : List DataPoint) (current_timestamp : Int) (is_active : Bool) :
    EnhancedBrightnessModel :=
  let m1 := m.adapt_bins data_points
  let sorted_data := sortByKey (fun p => p.timestamp) data_points
  sorted_data.foldl (fun acc point => acc.train point point.timestamp true) m1

/-! ### Definitions supporting the stated properties -/

/-- Default bin for `List.getD` indexing in statements. -/
def dBin : AdaptiveBin := mkAdaptiveBin 0 0

/-- The spec invariant on a bin list: sorted ascending, contiguous,
non-overlapping, jointly covering exactly `[lo, hi]` - first bin starts
at `lo`, last bin ends at `hi`, every bin has `min ≤ max`, and adjacent
bins share their boundary. -/
def binsPartition (bins : List AdaptiveBin) (lo hi : Int) : Prop :=
  bins.head?.map AdaptiveBin.min_value = some lo ∧
  bins.getLast?.map AdaptiveBin.max_value = some hi ∧
  (∀ j, j < bins.length →
    (bins.getD j dBin).min_value ≤ (bins.getD j dBin).max_value) ∧
  (∀ j, j < bins.length - 1 →
    (bins.getD j dBin).max_value = (bins.getD (j + 1) dBin).min_value)

/-- Default model used only to strip the `Option` from `mkModel` on
concrete, known-valid arguments. -/
def dModel : EnhancedBrightnessModel :=
  { ambient_bins := [], time_weight := 0, recency_weight := 0, activity_weight := 0,
    last_predictions := [], max_age_seconds := 0 }

/-- Concrete model over `[0, 200]` with 2 bins (`[0, 100)`, `[100, 200]`)
and the default weight coefficients. -/
def m200 : EnhancedBrightnessModel := (mkModel 0 200 2 (3/10) (2/5) (3/10)).getD dModel

/-- Concrete model over `[0, 100]` with 2 bins (`[0, 50)`, `[50, 100]`). -/
def m100 : EnhancedBrightnessModel := (mkModel 0 100 2 (3/10) (2/5) (3/10)).getD dModel

/-- Concrete 4-point history (= `2 * bin_count` for two bins) whose
ambient values `0, 10, 100, 110` leave a gap after rebinning. -/
def h4 : List DataPoint :=
  [{ timestamp := 0, ambient_light := 0, screen_brightness := 20, is_manual_adjustment := true },
   { timestamp := 1, ambient_light := 10, screen_brightness := 30, is_manual_adjustment := true },
   { timestamp := 2, ambient_light := 100, screen_brightness := 50, is_manual_adjustment := true },
   { timestamp := 3, ambient_light := 110, screen_brightness := 60, is_manual_adjustment := true }]

/-- A manual observation whose ambient value 200 lies strictly above
`max_ambient = 100` of `m100`. -/
def dpAbove : DataPoint :=
  { timestamp := 0, ambient_light := 200, screen_brightness := 50, is_manual_adjustment := true }

/-- A bin over `[0, 50)` holding one sample of brightness 50. -/
def binA : AdaptiveBin :=
  { min_value := 0, max_value := 50, points := [{ brightness := 50, weight := 1, timestamp := 0 }],
    total_weight := 1, max_points := 50 }

/-- An empty bin over `[50, 100]`. -/
def binB : AdaptiveBin := mkAdaptiveBin 50 100

/-- A manual observation whose ambient value -5 lies strictly below
`min_ambient = 0` of `m100`. -/
def dpBelow : DataPoint :=
  { timestamp := 0, ambient_light := -5, screen_brightness := 20, is_manual_adjustment := true }

/-- An automatic (non-manual) observation. -/
def dpAuto : DataPoint :=
  { timestamp := 0, ambient_light := 10, screen_brightness := 20, is_manual_adjustment := false }

/-- A bin of capacity 2 already filled with two samples of weights 1 and
2, used to exercise the eviction branch of `update`. -/
def binW : AdaptiveBin :=
  { min_value := 0, max_value := 10,
    points := [{ brightness := 5, weight := 1, timestamp := 0 },
               { brightness := 6, weight := 2, timestamp := 1 }],
    total_weight := 3, max_points := 2 }

/-- A model state whose smoothing window already holds the value 10 and
whose first bin predicts 50: two identical `predict` calls then return
different smoothed outputs. -/
def mC8 : EnhancedBrightnessModel :=
  { ambient_bins := [binA, binB], time_weight := 3/10, recency_weight := 2/5,
    activity_weight := 3/10, last_predictions := [10], max_age_seconds := 7 * 24 * 3600 }


theorem predict_eq_of_raw_none (m : EnhancedBrightnessModel) (a ts : Int) (act : Bool)
    (h : predictRaw m a ts act = none) : m.predict a ts act = (none, m) := by
  simp [EnhancedBrightnessModel.predict, h]

theorem predict_eq_of_raw_some (m : EnhancedBrightnessModel) (a ts : Int) (act : Bool)
    (w : Rat) (h : predictRaw m a ts act = some w) :
    m.predict a ts act =
      (some (pyMax 0 (pyMin 100 (if pushWindow m.last_predictions w = [] then w
          else (pushWindow m.last_predictions w).sum / ((pushWindow m.last_predictions w).length : Rat)))),
       { m with last_predictions := pushWindow m.last_predictions w }) := by
  simp [EnhancedBrightnessModel.predict, h]

theorem pyMax_pyMin_mem (s : Rat) : 0 ≤ pyMax 0 (pyMin 100 s) ∧ pyMax 0 (pyMin 100 s) ≤ 100 := by
  unfold pyMax pyMin
  split_ifs <;> constructor <;> linarith

/-- C3: for every model state and every input, `predict` either returns
the absent result or a numeric value clamped to `[0, 100]`; it is a
total function. -/
theorem predict_range_or_absent (m : EnhancedBrightnessModel) (a ts : Int) (act : Bool) :
    (m.predict a ts act).1 = none ∨
    ∃ v, (m.predict a ts act).1 = some v ∧ 0 ≤ v ∧ v ≤ 100 := by
  cases h : predictRaw m a ts act with
  | none => exact Or.inl (by rw [predict_eq_of_raw_none m a ts act h])
  | some w =>
    right
    rw [predict_eq_of_raw_some m a ts act w h]
    exact ⟨_, rfl, (pyMax_pyMin_mem _).1, (pyMax_pyMin_mem _).2⟩

/-- C10: when `predict` returns the absent result the model state is
completely unchanged; when it returns a value, the only change is one
push into the 3-slot smoothing window. -/
theorem predict_absent_frame (m : EnhancedBrightnessModel) (a ts : Int) (act : Bool) :
    ((m.predict a ts act).1 = none → (m.predict a ts act).2 = m) ∧
    (∀ v, (m.predict a ts act).1 = some v →
      ∃ w, (m.predict a ts act).2 = { m with last_predictions := pushWindow m.last_predictions w }) := by
  cases h : predictRaw m a ts act with
  | none =>
    rw [predict_eq_of_raw_none m a ts act h]
    exact ⟨fun _ => rfl, fun v hv => Option.noConfusion hv⟩
  | some w =>
    rw [predict_eq_of_raw_some m a ts act w h]
    exact ⟨fun hn => Option.noConfusion hn, fun v _ => ⟨w, rfl⟩⟩

theorem predict_absent_frame_witness :
    (m100.predict 10 0 true).2 = m100 ∧
    (∃ w, (mC8.predict 25 25200 true).2 =
      { mC8 with last_predictions := pushWindow mC8.last_predictions w }) :=
  ⟨(predict_absent_frame m100 10 0 true).1 (by with_unfolding_all decide),
   (predict_absent_frame mC8 25 25200 true).2 30 (by with_unfolding_all decide)⟩

/-- C6: training on an observation that is not a manual adjustment is a
no-op: the model (bins, total weights and smoothing window) is returned
exactly unchanged. -/
theorem train_not_manual_noop (m : EnhancedBrightnessModel) (dp : DataPoint)
    (ts : Int) (act : Bool) (h : dp.is_manual_adjustment = false) :
    m.train dp ts act = m := by
  unfold EnhancedBrightnessModel.train
  rw [h]
  rfl

theorem train_not_manual_noop_witness : m100.train dpAuto 0 true = m100 :=
  train_not_manual_noop m100 dpAuto 0 true rfl

/-- C8 counterexample: on a freshly constructed, untrained model two
consecutive `predict` calls with identical arguments return the same
output (both absent), refuting "for every model state ... different
outputs". -/
theorem predict_stateful_counterexample :
    (m100.predict 10 0 true).1 = ((m100.predict 10 0 true).2.predict 10 0 true).1 := by
  with_unfolding_all decide

/-- C8 (amended): `predict` is stateful through the smoothing window -
there exist model states on which two consecutive calls with identical
arguments return different outputs, the second call seeing the window
shifted by the first (here: 30, then 110/3, the window having absorbed
the adjusted value 50) - but not every state separates the two calls. -/
theorem predict_stateful_exists :
    (mC8.predict 25 25200 true).1 = some 30 ∧
    ((mC8.predict 25 25200 true).2.predict 25 25200 true).1 = some (110/3) ∧
    (mC8.predict 25 25200 true).1 ≠ ((mC8.predict 25 25200 true).2.predict 25 25200 true).1 ∧
    (mC8.predict 25 25200 true).2.last_predictions = pushWindow mC8.last_predictions 50 := by
  refine ⟨?_, ?_, ?_, ?_⟩ <;> with_unfolding_all decide

theorem cleanup_foldl (now age : Int) (l : List WeightedDataPoint) :
    ∀ (acc : List WeightedDataPoint) (w0 : Rat),
      l.foldl (fun acc2 point =>
          if now - point.timestamp ≤ age then (acc2.1 ++ [point], acc2.2 + point.weight)
          else acc2) (acc, w0) =
        (acc ++ l.filter (fun p => decide (now - p.timestamp ≤ age)),
         w0 + ((l.filter (fun p => decide (now - p.timestamp ≤ age))).map (fun p => p.weight)).sum) := by
  induction l with
  | nil => intro acc w0; simp
  | cons p rest ih =>
    intro acc w0
    by_cases hp : now - p.timestamp ≤ age
    · simp only [List.foldl_cons, if_pos hp, List.filter_cons]
      rw [ih]
      simp [hp, add_assoc]
    · simp only [List.foldl_cons, if_neg hp, List.filter_cons]
      rw [ih]
      simp [hp]

theorem cleanup_points_eq (b : AdaptiveBin) (now age : Int) :
    (b.cleanup now age).points = b.points.filter (fun p => decide (now - p.timestamp ≤ age)) := by
  simp only [AdaptiveBin.cleanup]
  rw [cleanup_foldl now age b.points [] 0]
  simp

theorem cleanup_total_eq (b : AdaptiveBin) (now age : Int) :
    (b.cleanup now age).total_weight = ((b.cleanup now age).points.map (fun p => p.weight)).sum := by
  simp only [AdaptiveBin.cleanup]
  rw [cleanup_foldl now age b.points [] 0]
  simp

/-- C7: `cleanup` keeps exactly the samples of age at most
`max_age_seconds` - in their original order and with their weights
untouched - and recomputes `total_weight` as the sum over survivors;
the model-level `cleanup` applies this to every bin with the model's
`max_age_seconds`. -/
theorem cleanup_removes_exactly (b : AdaptiveBin) (now age : Int) (m : EnhancedBrightnessModel) :
    (b.cleanup now age).points = b.points.filter (fun p => decide (now - p.timestamp ≤ age)) ∧
    (∀ p, p ∈ (b.cleanup now age).points ↔ p ∈ b.points ∧ now - p.timestamp ≤ age) ∧
    (b.cleanup now age).points.Sublist b.points ∧
    (b.cleanup now age).total_weight = ((b.cleanup now age).points.map (fun p => p.weight)).sum ∧
    (m.cleanup now).ambient_bins = m.ambient_bins.map (fun b2 => b2.cleanup now m.max_age_seconds) := by
  refine ⟨cleanup_points_eq b now age, ?_, ?_, cleanup_total_eq b now age, rfl⟩
  · intro p
    rw [cleanup_points_eq b now age, List.mem_filter]
    simp
  · rw [cleanup_points_eq b now age]
    exact List.filter_sublist _

theorem minWeightIdxAux_spec (l : List WeightedDataPoint) :
    ∀ (i bestIdx : Nat) (bestW : Rat),
      (minWeightIdxAux l i bestIdx bestW = bestIdx ∧ ∀ q ∈ l, bestW ≤ q.weight) ∨
      (∃ j, j < l.length ∧ minWeightIdxAux l i bestIdx bestW = i + j ∧
        (l.getD j defPoint).weight < bestW ∧
        (∀ q ∈ l, (l.getD j defPoint).weight ≤ q.weight) ∧
        (∀ t, t < j → (l.getD j defPoint).weight < (l.getD t defPoint).weight)) := by
  induction l with
  | nil => intro i bestIdx bestW; exact Or.inl ⟨rfl, by simp⟩
  | cons p rest ih =>
    intro i bestIdx bestW
    rw [minWeightIdxAux]
    by_cases hp : p.weight < bestW
    · rw [if_pos hp]
      rcases ih (i + 1) i p.weight with ⟨heq, hall⟩ | ⟨j, hjl, heq, hlt, hall, hfirst⟩
      · refine Or.inr ⟨0, by simp, by omega, by simpa using hp, ?_, by omega⟩
        intro q hq
        rcases List.mem_cons.mp hq with rfl | hq2
        · simp
        · simpa using hall q hq2
      · refine Or.inr ⟨j + 1, by simpa using hjl, by omega, ?_, ?_, ?_⟩
        · simpa using hlt.trans hp
        · intro q hq
          rcases List.mem_cons.mp hq with rfl | hq2
          · simpa using hlt.le
          · simpa using hall q hq2
        · intro t ht
          cases t with
          | zero => simpa using hlt
          | succ t2 => simpa using hfirst t2 (by omega)
    · rw [if_neg hp]
      rcases ih (i + 1) bestIdx bestW with ⟨heq, hall⟩ | ⟨j, hjl, heq, hlt, hall, hfirst⟩
      · refine Or.inl ⟨heq, ?_⟩
        intro q hq
        rcases List.mem_cons.mp hq with rfl | hq2
        · exact not_lt.mp hp
        · exact hall q hq2
      · refine Or.inr ⟨j + 1, by simpa using hjl, by omega, ?_, ?_, ?_⟩
        · simpa using hlt
        · intro q hq
          rcases List.mem_cons.mp hq with rfl | hq2
          · simpa using (hlt.trans_le (not_lt.mp hp)).le
          · simpa using hall q hq2
        · intro t ht
          cases t with
          | zero => simpa using hlt.trans_le (not_lt.mp hp)
          | succ t2 => simpa using hfirst t2 (by omega)

theorem minWeightIdx_spec (l : List WeightedDataPoint) (hne : l ≠ []) :
    minWeightIdx l < l.length ∧
    (∀ q ∈ l, (l.getD (minWeightIdx l) defPoint).weight ≤ q.weight) ∧
    (∀ t, t < minWeightIdx l →
      (l.getD (minWeightIdx l) defPoint).weight < (l.getD t defPoint).weight) := by
  match l, hne with
  | p :: rest, _ =>
    show minWeightIdxAux rest 1 0 p.weight < (p :: rest).length ∧ _
    rcases minWeightIdxAux_spec rest 1 0 p.weight with ⟨heq, hall⟩ | ⟨j, hjl, heq, hlt, hall, hfirst⟩
    · rw [minWeightIdx, heq]
      refine ⟨by simp, ?_, by omega⟩
      intro q hq
      rcases List.mem_cons.mp hq with rfl | hq2
      · simp
      · simpa using hall q hq2
    · rw [minWeightIdx, heq]
      have hgd : ((p :: rest).getD (1 + j) defPoint) = rest.getD j defPoint := by
        have : 1 + j = j + 1 := by omega
        rw [this, List.getD_cons_succ]
      refine ⟨by simp; omega, ?_, ?_⟩
      · intro q hq
        rw [hgd]
        rcases List.mem_cons.mp hq with rfl | hq2
        · exact hlt.le
        · exact hall q hq2
      · intro t ht
        rw [hgd]
        cases t with
        | zero => simpa using hlt
        | succ t2 => simpa using hfirst t2 (by omega)

theorem sum_map_weight_eraseIdx :
    ∀ (l : List WeightedDataPoint) (i : Nat), i < l.length →
      ((l.eraseIdx i).map (fun p => p.weight)).sum =
        (l.map (fun p => p.weight)).sum - (l.getD i defPoint).weight := by
  intro l
  induction l with
  | nil => intro i h; simp at h
  | cons p rest ih =>
    intro i h
    cases i with
    | zero => simp [List.eraseIdx]
    | succ n =>
      have hn : n < rest.length := by simpa using h
      simp only [List.eraseIdx_cons_succ, List.map_cons, List.sum_cons, List.getD_cons_succ,
        ih n hn]
      ring

/-- C4: under the capacity invariant, `update` keeps the bin at or below
its capacity; when the appended list overflows, the evicted sample is
the one of minimum weight among all samples present at that instant
(the new sample included), ties resolved to the earliest insertion
index, and `total_weight` drops by exactly the evicted weight. -/
theorem update_capacity_eviction (b : AdaptiveBin) (br : Int) (w : Rat) (ts : Int)
    (h : b.points.length ≤ b.max_points) :
    (b.update br w ts).points.length ≤ b.max_points ∧
    ((b.points ++ [(⟨br, w, ts⟩ : WeightedDataPoint)]).length > b.max_points →
      (∀ q ∈ b.points ++ [(⟨br, w, ts⟩ : WeightedDataPoint)],
        ((b.points ++ [(⟨br, w, ts⟩ : WeightedDataPoint)]).getD
          (minWeightIdx (b.points ++ [(⟨br, w, ts⟩ : WeightedDataPoint)]))
          defPoint).weight ≤ q.weight) ∧
      (∀ t, t < minWeightIdx (b.points ++ [(⟨br, w, ts⟩ : WeightedDataPoint)]) →
        ((b.points ++ [(⟨br, w, ts⟩ : WeightedDataPoint)]).getD
          (minWeightIdx (b.points ++ [(⟨br, w, ts⟩ : WeightedDataPoint)]))
          defPoint).weight <
        ((b.points ++ [(⟨br, w, ts⟩ : WeightedDataPoint)]).getD t defPoint).weight) ∧
      (b.update br w ts).total_weight = b.total_weight + w -
        ((b.points ++ [(⟨br, w, ts⟩ : WeightedDataPoint)]).getD
          (minWeightIdx (b.points ++ [(⟨br, w, ts⟩ : WeightedDataPoint)]))
          defPoint).weight ∧
      (b.update br w ts).points = (b.points ++ [(⟨br, w, ts⟩ : WeightedDataPoint)]).eraseIdx
        (minWeightIdx (b.points ++ [(⟨br, w, ts⟩ : WeightedDataPoint)]))) := by
  have hne : b.points ++ [(⟨br, w, ts⟩ : WeightedDataPoint)] ≠ [] := by
    simp
  have hspec := minWeightIdx_spec (b.points ++ [(⟨br, w, ts⟩ : WeightedDataPoint)]) hne
  unfold AdaptiveBin.update
  by_cases hlen : (b.points ++ [(⟨br, w, ts⟩ : WeightedDataPoint)]).length > b.max_points
  · rw [if_pos hlen]
    refine ⟨?_, fun _ => ⟨hspec.2.1, hspec.2.2, rfl, rfl⟩⟩
    rw [List.length_eraseIdx_of_lt hspec.1]
    simp at hlen ⊢
    omega
  · rw [if_neg hlen]
    refine ⟨?_, fun hc => absurd hc hlen⟩
    simp at hlen ⊢
    omega

theorem update_capacity_eviction_witness :
    binW.points.length ≤ binW.max_points ∧
    (binW.update 7 (1/2) 2).points.length ≤ binW.max_points ∧
    (binW.update 7 (1/2) 2).total_weight = binW.total_weight + 1/2 -
      ((binW.points ++ [(⟨7, 1/2, 2⟩ : WeightedDataPoint)]).getD
        (minWeightIdx (binW.points ++ [(⟨7, 1/2, 2⟩ : WeightedDataPoint)]))
        defPoint).weight :=
  ⟨by with_unfolding_all decide,
   (update_capacity_eviction binW 7 (1/2) 2 (by with_unfolding_all decide)).1,
   ((update_capacity_eviction binW 7 (1/2) 2 (by with_unfolding_all decide)).2
     (by with_unfolding_all decide)).2.2.1⟩

/-- C5: a bin whose `total_weight` equals the sum of its sample weights
keeps that equality across `update` (eviction included), and `cleanup`
re-establishes it unconditionally. -/
theorem total_weight_eq_sum (b : AdaptiveBin) (br : Int) (w : Rat) (ts now age : Int) :
    (b.total_weight = (b.points.map (fun p => p.weight)).sum →
      (b.update br w ts).total_weight = ((b.update br w ts).points.map (fun p => p.weight)).sum) ∧
    (b.cleanup now age).total_weight = ((b.cleanup now age).points.map (fun p => p.weight)).sum := by
  refine ⟨?_, cleanup_total_eq b now age⟩
  intro hb
  have hne : b.points ++ [(⟨br, w, ts⟩ : WeightedDataPoint)] ≠ [] := by simp
  have hspec := minWeightIdx_spec (b.points ++ [(⟨br, w, ts⟩ : WeightedDataPoint)]) hne
  unfold AdaptiveBin.update
  by_cases hlen : (b.points ++ [(⟨br, w, ts⟩ : WeightedDataPoint)]).length > b.max_points
  · rw [if_pos hlen]
    simp only
    rw [sum_map_weight_eraseIdx _ _ hspec.1]
    simp [hb]
  · rw [if_neg hlen]
    simp [hb]

theorem total_weight_eq_sum_witness :
    (binW.update 7 (1/2) 2).total_weight =
      ((binW.update 7 (1/2) 2).points.map (fun p => p.weight)).sum :=
  (total_weight_eq_sum binW 7 (1/2) 2 0 0).1 (by with_unfolding_all decide)

theorem findBinIdx_none_of_below (bins : List AdaptiveBin) (x : Int)
    (h : ∀ bin ∈ bins, x < bin.min_value) : findBinIdx bins x = none := by
  unfold findBinIdx
  rw [Option.map_eq_none', List.find?_eq_none]
  intro ib hib
  have hmem : ib.2 ∈ bins := by
    have hs := List.enum_map_snd bins
    exact hs ▸ List.mem_map_of_mem Prod.snd hib
  have hx := h ib.2 hmem
  simp only [Bool.or_eq_true, Bool.and_eq_true, decide_eq_true_eq]
  omega

theorem predict_none_of_lookup_none (m : EnhancedBrightnessModel) (x ts : Int) (act : Bool)
    (h : findBinIdx m.ambient_bins x = none) : m.predict x ts act = (none, m) := by
  apply predict_eq_of_raw_none
  simp [predictRaw, h]

theorem train_noop_of_lookup_none (m : EnhancedBrightnessModel) (dp : DataPoint)
    (ts : Int) (act : Bool) (h : findBinIdx m.ambient_bins dp.ambient_light = none) :
    m.train dp ts act = m := by
  simp [EnhancedBrightnessModel.train, h]

/-- C2 (amended): an ambient value below every bin (in particular below
`min_ambient`) matches no bin - `predict` returns the absent result and
`train` is a no-op - while any value at or above the last bin's `min`
(including values above `max_ambient`) is accepted by the last bin; a
successful lookup always selects a bin with `min ≤ x < max`, the last
bin also accepting `x ≥ min`. -/
theorem bin_lookup_domain (m : EnhancedBrightnessModel) (x ts : Int) (act : Bool) :
    ((∀ bin ∈ m.ambient_bins, x < bin.min_value) →
      findBinIdx m.ambient_bins x = none ∧
      m.predict x ts act = (none, m) ∧
      (∀ dp : DataPoint, dp.ambient_light = x → m.train dp ts act = m)) ∧
    (∀ bl, m.ambient_bins.getLast? = some bl → bl.min_value ≤ x →
      (findBinIdx m.ambient_bins x).isSome = true) ∧
    (∀ i, findBinIdx m.ambient_bins x = some i →
      ∃ bin, m.ambient_bins.get? i = some bin ∧
        ((bin.min_value ≤ x ∧ x < bin.max_value) ∨
         (i = m.ambient_bins.length - 1 ∧ bin.min_value ≤ x))) := by
  refine ⟨?_, ?_, ?_⟩
  · intro h
    have hn := findBinIdx_none_of_below m.ambient_bins x h
    refine ⟨hn, predict_none_of_lookup_none m x ts act hn, ?_⟩
    intro dp hdp
    exact train_noop_of_lookup_none m dp ts act (hdp ▸ hn)
  · intro bl hlast hle
    rw [List.getLast?_eq_getElem?] at hlast
    unfold findBinIdx
    rw [Option.isSome_map', List.find?_isSome]
    refine ⟨(m.ambient_bins.length - 1, bl), ?_, ?_⟩
    · rw [List.mem_iff_getElem?]
      exact ⟨m.ambient_bins.length - 1, by rw [List.getElem?_enum, hlast]; rfl⟩
    · simp only [Bool.or_eq_true, Bool.and_eq_true, decide_eq_true_eq]
      right
      exact ⟨by trivial, hle⟩
  · intro i hi
    unfold findBinIdx at hi
    rcases Option.map_eq_some'.mp hi with ⟨ib, hfind, hib1⟩
    have hpred := List.find?_some hfind
    have hmem := List.mem_of_find?_eq_some hfind
    rw [List.mem_iff_getElem?] at hmem
    rcases hmem with ⟨n, hn⟩
    rw [List.getElem?_enum] at hn
    rcases Option.map_eq_some'.mp hn with ⟨b0, hb0, hnb⟩
    refine ⟨b0, ?_, ?_⟩
    · rw [List.get?_eq_getElem?, ← hib1, ← hnb]
      exact hb0
    · simp only [Bool.or_eq_true, Bool.and_eq_true, decide_eq_true_eq] at hpred
      rw [← hib1, ← hnb]
      rw [← hnb] at hpred
      exact hpred

theorem bin_lookup_domain_witness :
    (findBinIdx m100.ambient_bins (-5) = none ∧
     m100.predict (-5) 0 true = (none, m100) ∧
     m100.train dpBelow 0 true = m100) ∧
    (findBinIdx m100.ambient_bins 200).isSome = true ∧
    (∃ bin, m100.ambient_bins.get? 1 = some bin ∧
      ((bin.min_value ≤ 200 ∧ (200 : Int) < bin.max_value) ∨
       (1 = m100.ambient_bins.length - 1 ∧ bin.min_value ≤ 200))) := by
  refine ⟨?_, ?_, ?_⟩
  · have h := (bin_lookup_domain m100 (-5) 0 true).1 (by with_unfolding_all decide)
    exact ⟨h.1, h.2.1, h.2.2 dpBelow (by with_unfolding_all decide)⟩
  · exact (bin_lookup_domain m100 200 0 true).2.1 binB (by with_unfolding_all decide)
      (by with_unfolding_all decide)
  · exact (bin_lookup_domain m100 200 0 true).2.2 1 (by with_unfolding_all decide)

/-- C2 counterexample: the ambient value 200 lies strictly above
`max_ambient = 100` of `m100`, yet lookup selects the last bin (index 1)
and training an observation with that ambient value changes the bins. -/
theorem bin_lookup_domain_counterexample :
    findBinIdx m100.ambient_bins 200 = some 1 ∧
    (m100.train dpAbove 0 true).ambient_bins ≠ m100.ambient_bins := by
  constructor <;> with_unfolding_all decide

theorem length_insertByKey {A : Type} (k : A → Int) (x : A) (l : List A) :
    (insertByKey k x l).length = l.length + 1 := by
  induction l with
  | nil => rfl
  | cons y ys ih =>
    rw [insertByKey]
    split_ifs with h
    · simp
    · simp only [List.length_cons, ih]

theorem mem_insertByKey {A : Type} (k : A → Int) (x a : A) (l : List A) :
    a ∈ insertByKey k x l ↔ a = x ∨ a ∈ l := by
  induction l with
  | nil => simp [insertByKey]
  | cons y ys ih =>
    rw [insertByKey]
    split_ifs with h
    · simp [List.mem_cons]
    · simp only [List.mem_cons, ih]
      tauto

theorem pairwise_insertByKey {A : Type} (k : A → Int) (x : A) (l : List A)
    (h : l.Pairwise (fun a b => k a ≤ k b)) :
    (insertByKey k x l).Pairwise (fun a b => k a ≤ k b) := by
  induction l with
  | nil => simp [insertByKey]
  | cons y ys ih =>
    rw [insertByKey]
    rcases List.pairwise_cons.mp h with ⟨hy, hys⟩
    split_ifs with hxy
    · refine List.pairwise_cons.mpr ⟨?_, h⟩
      intro b hb
      rcases List.mem_cons.mp hb with rfl | hb2
      · exact hxy
      · exact le_trans hxy (hy b hb2)
    · refine List.pairwise_cons.mpr ⟨?_, ih hys⟩
      intro b hb
      rcases (mem_insertByKey k x b ys).mp hb with rfl | hb2
      · exact le_of_not_le hxy
      · exact hy b hb2

theorem pairwise_sortByKey {A : Type} (k : A → Int) (l : List A) :
    (sortByKey k l).Pairwise (fun a b => k a ≤ k b) := by
  induction l with
  | nil => simp [sortByKey]
  | cons x xs ih =>
    rw [sortByKey]
    exact pairwise_insertByKey k x _ ih

theorem length_sortByKey {A : Type} (k : A → Int) (l : List A) :
    (sortByKey k l).length = l.length := by
  induction l with
  | nil => rfl
  | cons x xs ih => rw [sortByKey, length_insertByKey, ih, List.length_cons]

/-- C9: `load_historical_data` ignores its `current_timestamp` and
`is_active` arguments; it rebins on the history and then folds `train`
over the history sorted ascending by timestamp, passing each point's
own timestamp as "now" and `is_active = true`, so that every trained
point has elapsed age 0 and the weight's recency component saturates to
exactly `recency_weight`. -/
theorem load_historical_spec (m : EnhancedBrightnessModel) (data : List DataPoint)
    (now now2 : Int) (act act2 : Bool) :
    m.load_historical_data data now act = m.load_historical_data data now2 act2 ∧
    m.load_historical_data data now act =
      (sortByKey (fun p => p.timestamp) data).foldl
        (fun acc point => acc.train point point.timestamp true) (m.adapt_bins data) ∧
    (sortByKey (fun p : DataPoint => p.timestamp) data).Pairwise
      (fun a b => a.timestamp ≤ b.timestamp) ∧
    (∀ ctf ptf : TimeFeatures,
      m.calculate_weight ctf ptf 0 true =
        m.time_weight * (if ctf.is_day = ptf.is_day then 1 else 1/5) +
        m.recency_weight + m.activity_weight) := by
  refine ⟨rfl, rfl, pairwise_sortByKey _ data, ?_⟩
  intro ctf ptf
  unfold EnhancedBrightnessModel.calculate_weight
  simp [pyMax]

theorem getD_mono_of_sorted (s : List Int) (hs : s.Pairwise (fun a b => a ≤ b))
    (i j : Nat) (hij : i ≤ j) (hj : j < s.length) : s.getD i 0 ≤ s.getD j 0 := by
  rcases Nat.lt_or_ge i j with hlt | hge
  · have hi : i < s.length := lt_trans hlt hj
    rw [List.getD_eq_getElem s 0 hi, List.getD_eq_getElem s 0 hj]
    exact List.pairwise_iff_get.mp hs ⟨i, hi⟩ ⟨j, hj⟩ hlt
  · have hij2 : i = j := le_antisymm hij hge
    subst hij2
    exact le_refl _

theorem binsPartition_min_ge (bins : List AdaptiveBin) (lo hi : Int)
    (h : binsPartition bins lo hi) :
    ∀ j, j < bins.length → lo ≤ (bins.getD j dBin).min_value := by
  obtain ⟨hhead, hlast, hminmax, hchain⟩ := h
  intro j
  induction j with
  | zero =>
    intro hj
    have h0 : bins.head? = some (bins.getD 0 dBin) := by
      rw [List.head?_eq_getElem?, List.getD_eq_getElem bins dBin hj]
      exact List.getElem?_eq_getElem hj
    rw [h0] at hhead
    have h1 : (bins.getD 0 dBin).min_value = lo := by simpa using hhead
    omega
  | succ n ih =>
    intro hj
    have hn : n < bins.length := by omega
    have hlo := ih hn
    have hc := hchain n (by omega)
    have hmm := hminmax n hn
    omega

theorem mem_enum_of_lt (bins : List AdaptiveBin) (j : Nat) (hj : j < bins.length) :
    (j, bins.getD j dBin) ∈ bins.enum := by
  rw [List.mem_iff_getElem?]
  refine ⟨j, ?_⟩
  rw [List.getElem?_enum, List.getElem?_eq_getElem hj, List.getD_eq_getElem bins dBin hj]
  rfl

theorem binsPartition_lookup (bins : List AdaptiveBin) (lo hi x : Int)
    (h : binsPartition bins lo hi) :
    (lo ≤ x → (findBinIdx bins x).isSome = true) ∧
    (x < lo → findBinIdx bins x = none) := by
  constructor
  · intro hle
    by_contra hns
    have hnone : findBinIdx bins x = none := by
      cases hfb : findBinIdx bins x with
      | none => rfl
      | some i => rw [hfb] at hns; simp at hns
    unfold findBinIdx at hnone
    rw [Option.map_eq_none', List.find?_eq_none] at hnone
    obtain ⟨hhead, hlast, hminmax, hchain⟩ := h
    have hlen : 0 < bins.length := by
      cases hb : bins with
      | nil => rw [hb] at hhead; simp at hhead
      | cons a l => simp [hb]
    have hall : ∀ j, j < bins.length → (bins.getD j dBin).min_value ≤ x := by
      intro j
      induction j with
      | zero =>
        intro hj
        have h0 : bins.head? = some (bins.getD 0 dBin) := by
          rw [List.head?_eq_getElem?, List.getD_eq_getElem bins dBin hj]
          exact List.getElem?_eq_getElem hj
        rw [h0] at hhead
        have h1 : (bins.getD 0 dBin).min_value = lo := by simpa using hhead
        omega
      | succ n ih =>
        intro hj
        have hn : n < bins.length := by omega
        have hmin := ih hn
        have hpred := hnone (n, bins.getD n dBin) (mem_enum_of_lt bins n hn)
        simp only [Bool.or_eq_true, Bool.and_eq_true, decide_eq_true_eq] at hpred
        have hc := hchain n (by omega)
        omega
    have hpredlast := hnone (bins.length - 1, bins.getD (bins.length - 1) dBin)
      (mem_enum_of_lt bins (bins.length - 1) (by omega))
    simp only [Bool.or_eq_true, Bool.and_eq_true, decide_eq_true_eq] at hpredlast
    have hminlast := hall (bins.length - 1) (by omega)
    exact (not_or.mp hpredlast).2 ⟨trivial, hminlast⟩
  · intro hlt
    apply findBinIdx_none_of_below
    intro bin hbin
    rw [List.mem_iff_getElem?] at hbin
    rcases hbin with ⟨n, hn⟩
    have hnl : n < bins.length := by
      by_contra hge
      rw [List.getElem?_eq_none (by omega)] at hn
      cases hn
    have hge := binsPartition_min_ge bins lo hi h n hnl
    have hbe : bins.getD n dBin = bin := by
      rw [List.getD_eq_getElem bins dBin hnl]
      rw [List.getElem?_eq_getElem hnl] at hn
      injection hn
    rw [hbe] at hge
    omega

theorem getD_range_map {B : Type} (f : Nat → B) (bc j : Nat) (hj : j < bc) (d : B) :
    ((List.range bc).map f).getD j d = f j := by
  have hl : j < ((List.range bc).map f).length := by
    rw [List.length_map, List.length_range]
    exact hj
  rw [List.getD_eq_getElem _ _ hl, List.getElem_map, List.getElem_range]

theorem mkModel_some (lo hi : Int) (bc : Nat) (tw rw2 aw : Rat) (m : EnhancedBrightnessModel)
    (h : mkModel lo hi bc tw rw2 aw = some m) :
    0 < bc ∧ lo < hi ∧
    m.ambient_bins = (List.range bc).map (fun i : Nat =>
      mkAdaptiveBin (lo + (i : Int) * ((hi - lo).fdiv bc))
        (if i = bc - 1 then hi
         else lo + (i : Int) * ((hi - lo).fdiv bc) + (hi - lo).fdiv bc)) := by
  unfold mkModel at h
  by_cases hg : bc = 0 ∨ lo ≥ hi
  · rw [if_pos hg] at h
    cases h
  · rw [if_neg hg] at h
    push_neg at hg
    refine ⟨by omega, by omega, ?_⟩
    have hm := (Option.some_inj.mp h).symm
    rw [hm]

theorem mkModel_partition (lo hi : Int) (bc : Nat) (tw rw2 aw : Rat)
    (m : EnhancedBrightnessModel) (h : mkModel lo hi bc tw rw2 aw = some m) :
    binsPartition m.ambient_bins lo hi := by
  obtain ⟨hbc, hlohi, hbins⟩ := mkModel_some lo hi bc tw rw2 aw m h
  have hs0 : 0 ≤ (hi - lo).fdiv bc := Int.fdiv_nonneg (by omega) (by omega)
  have hs1 : (bc : Int) * ((hi - lo).fdiv bc) ≤ hi - lo := by
    rw [Int.fdiv_eq_ediv _ (by omega : (0:Int) ≤ (bc : Int))]
    have h1 := Int.ediv_add_emod (hi - lo) (bc : Int)
    have h2 := Int.emod_nonneg (hi - lo) (by omega : ((bc : Nat) : Int) ≠ 0)
    omega
  have hlenm : m.ambient_bins.length = bc := by
    rw [hbins, List.length_map, List.length_range]
  refine ⟨?_, ?_, ?_, ?_⟩
  · rw [hbins, List.head?_eq_getElem?,
      List.getElem?_eq_getElem (by rw [List.length_map, List.length_range]; omega),
      List.getElem_map, List.getElem_range]
    simp [mkAdaptiveBin]
  · rw [hbins, List.getLast?_eq_getElem?]
    rw [List.getElem?_eq_getElem (by rw [List.length_map, List.length_range]; omega)]
    rw [List.getElem_map, List.getElem_range]
    simp [mkAdaptiveBin]
  · intro j hj
    rw [hlenm] at hj
    rw [hbins, getD_range_map _ bc j hj dBin]
    by_cases hjl : j = bc - 1
    · rw [if_pos hjl]
      simp only [mkAdaptiveBin, hjl]
      have hc : ((bc - 1 : Nat) : Int) = (bc : Int) - 1 := by omega
      rw [hc]
      have hr : ((bc : Int) - 1) * ((hi - lo).fdiv bc) =
          (bc : Int) * ((hi - lo).fdiv bc) - (hi - lo).fdiv bc := by ring
      linarith
    · rw [if_neg hjl]
      simp only [mkAdaptiveBin]
      linarith
  · intro j hj
    rw [hlenm] at hj
    rw [hbins, getD_range_map _ bc j (by omega) dBin, getD_range_map _ bc (j + 1) (by omega) dBin]
    rw [if_neg (by omega : ¬ j = bc - 1)]
    simp only [mkAdaptiveBin]
    push_cast
    ring

theorem quantile_idx_facts (L N : Nat) (hN : 0 < N) (hL : 2 * N ≤ L) :
    ∀ j, j < N → (j * L) / N + 2 ≤ ((j + 1) * L) / N ∧ ((j + 1) * L) / N ≤ L ∧ (j * L) / N < L := by
  intro j hj
  have hstep : (j * L) / N + 2 ≤ ((j + 1) * L) / N := by
    have h1 : (j * L + 2 * N) / N = (j * L) / N + 2 := Nat.add_mul_div_right _ _ hN
    have h2 : j * L + 2 * N ≤ (j + 1) * L := by
      have he : (j + 1) * L = j * L + L := by ring
      omega
    calc (j * L) / N + 2 = (j * L + 2 * N) / N := h1.symm
      _ ≤ ((j + 1) * L) / N := Nat.div_le_div_right h2
  have hub : ((j + 1) * L) / N ≤ L := by
    have h3 : (j + 1) * L ≤ N * L := Nat.mul_le_mul_right L (by omega)
    calc ((j + 1) * L) / N ≤ (N * L) / N := Nat.div_le_div_right h3
      _ = L := Nat.mul_div_cancel_left L hN
  exact ⟨hstep, hub, by omega⟩

theorem adaptBinStep_bounds (s : List Int) (hs : s.Pairwise (fun a b => a ≤ b))
    (N : Nat) (hN : 0 < N) (hL : 2 * N ≤ s.length) (j : Nat) (hj : j < N) (b : AdaptiveBin) :
    (adaptBinStep s N j b).min_value = s.getD ((j * s.length) / N) 0 ∧
    (adaptBinStep s N j b).min_value ≤ (adaptBinStep s N j b).max_value ∧
    (j + 1 < N → (adaptBinStep s N j b).max_value ≤ s.getD (((j + 1) * s.length) / N) 0) := by
  obtain ⟨h1, h2, h3⟩ := quantile_idx_facts s.length N hN hL j hj
  have h4 : j + 1 < N → ((j + 1) * s.length) / N < s.length := fun hjn =>
    (quantile_idx_facts s.length N hN hL (j + 1) hjn).2.2
  simp only [adaptBinStep]
  generalize hen : ((j + 1) * s.length) / N = en at h1 h2 h4 ⊢
  generalize hst : (j * s.length) / N = st at h1 h3 ⊢
  have hmin : min (((en : Nat) : Int) - 1) ((s.length : Int) - 1) = ((en : Nat) : Int) - 1 :=
    min_eq_left (by omega)
  rw [hmin]
  rw [if_neg (by omega : ¬ (((st : Nat) : Int) ≥ (s.length : Int) ∨
    ((en : Nat) : Int) - 1 < 0 ∨ ((st : Nat) : Int) > ((en : Nat) : Int) - 1))]
  have htn1 : (((st : Nat) : Int)).toNat = st := Int.toNat_natCast _
  have htn2 : (((en : Nat) : Int) - 1).toNat = en - 1 := by omega
  rw [htn1, htn2]
  by_cases hj1 : j = N - 1
  · rw [if_pos hj1]
    have hrep : ¬ (s.getD st 0 ≥ s.getD (s.length - 1) 0 ∧ j < N - 1) := by
      intro hc
      omega
    rw [if_neg hrep]
    refine ⟨rfl, ?_, ?_⟩
    · exact getD_mono_of_sorted s hs _ _ (by omega) (by omega)
    · intro hcon
      omega
  · rw [if_neg hj1]
    have hj2 : j + 1 < N := by omega
    have hlt2 : en < s.length := h4 hj2
    by_cases hrep : s.getD st 0 ≥ s.getD (en - 1) 0 ∧ j < N - 1
    · rw [if_pos hrep]
      rw [if_pos (by omega : ((en : Nat) : Int) - 1 + 1 < (s.length : Int))]
      have htn3 : ((((en : Nat) : Int) - 1) + 1).toNat = en := by omega
      rw [htn3]
      refine ⟨rfl, ?_, fun _ => le_refl _⟩
      exact getD_mono_of_sorted s hs _ _ (by omega) hlt2
    · rw [if_neg hrep]
      refine ⟨rfl, ?_, ?_⟩
      · have hx : ¬ s.getD st 0 ≥ s.getD (en - 1) 0 := by
          intro hc
          exact hrep ⟨hc, by omega⟩
        show s.getD st 0 ≤ s.getD (en - 1) 0
        omega
      · intro _
        exact getD_mono_of_sorted s hs _ _ (by omega) hlt2

theorem getD_enum_map_bins (bins : List AdaptiveBin) (f : Nat → AdaptiveBin → AdaptiveBin)
    (j : Nat) (hj : j < bins.length) :
    (bins.enum.map (fun ib => f ib.1 ib.2)).getD j dBin = f j (bins.getD j dBin) := by
  have hl : j < (bins.enum.map (fun ib => f ib.1 ib.2)).length := by
    rw [List.length_map, List.enum_length]
    exact hj
  rw [List.getD_eq_getElem _ _ hl, List.getElem_map, List.getElem_enum,
    List.getD_eq_getElem bins dBin hj]

theorem adapt_bins_bounds (m : EnhancedBrightnessModel) (data : List DataPoint)
    (hL : m.ambient_bins.length * 2 ≤ data.length) (j : Nat) (hj : j < m.ambient_bins.length) :
    ((m.adapt_bins data).ambient_bins.getD j dBin).min_value =
      (sortByKey (fun a => a) (data.map (fun d => d.ambient_light))).getD
        ((j * data.length) / m.ambient_bins.length) 0 ∧
    ((m.adapt_bins data).ambient_bins.getD j dBin).min_value ≤
      ((m.adapt_bins data).ambient_bins.getD j dBin).max_value ∧
    (j + 1 < m.ambient_bins.length →
      ((m.adapt_bins data).ambient_bins.getD j dBin).max_value ≤
        ((m.adapt_bins data).ambient_bins.getD (j + 1) dBin).min_value) := by
  have hsl : (sortByKey (fun a => a) (data.map (fun d => d.ambient_light))).length =
      data.length := by
    rw [length_sortByKey, List.length_map]
  have hsp : (sortByKey (fun a => a) (data.map (fun d => d.ambient_light))).Pairwise
      (fun a b => a ≤ b) := pairwise_sortByKey (fun a => a) _
  have hN : 0 < m.ambient_bins.length := by omega
  have hL2 : 2 * m.ambient_bins.length ≤
      (sortByKey (fun a => a) (data.map (fun d => d.ambient_light))).length := by omega
  have hguard : ¬ (data.length < m.ambient_bins.length * 2) := by omega
  have hb := adaptBinStep_bounds (sortByKey (fun a => a) (data.map (fun d => d.ambient_light)))
    hsp m.ambient_bins.length hN hL2 j hj (m.ambient_bins.getD j dBin)
  unfold EnhancedBrightnessModel.adapt_bins
  rw [if_neg hguard]
  simp only
  rw [getD_enum_map_bins m.ambient_bins _ j hj]
  refine ⟨by rw [hb.1, hsl], hb.2.1, ?_⟩
  intro hj2
  rw [getD_enum_map_bins m.ambient_bins _ (j + 1) (by omega)]
  have hb2 := adaptBinStep_bounds (sortByKey (fun a => a) (data.map (fun d => d.ambient_light)))
    hsp m.ambient_bins.length hN hL2 (j + 1) hj2 (m.ambient_bins.getD (j + 1) dBin)
  rw [hb2.1]
  exact hb.2.2 hj2

/-- C1 (corrected / amended): after any valid construction the bins are
sorted ascending, contiguous, non-overlapping and jointly cover exactly
the interval from `min_ambient` to `max_ambient` - any ambient at or
above `min_ambient` has a bin and anything below has none.  After a
successful rebin (history length at least `2 * bin_count`) the bins
remain sorted and non-overlapping, each bin keeping `min ≤ max` and
`max` at most the next bin's `min`, with each `min` the history
quantile `sorted[i * L / N]` - but they are not necessarily contiguous
and need not cover the constructed domain. -/
theorem bins_partition_construct_rebin :
    (∀ (lo hi : Int) (bc : Nat) (tw rw2 aw : Rat) (m : EnhancedBrightnessModel),
      mkModel lo hi bc tw rw2 aw = some m → binsPartition m.ambient_bins lo hi) ∧
    (∀ (bins : List AdaptiveBin) (lo hi x : Int), binsPartition bins lo hi →
      (lo ≤ x → (findBinIdx bins x).isSome = true) ∧
      (x < lo → findBinIdx bins x = none)) ∧
    (∀ (m : EnhancedBrightnessModel) (data : List DataPoint),
      m.ambient_bins.length * 2 ≤ data.length →
      ∀ j, j < m.ambient_bins.length →
        ((m.adapt_bins data).ambient_bins.getD j dBin).min_value =
          (sortByKey (fun a => a) (data.map (fun d => d.ambient_light))).getD
            ((j * data.length) / m.ambient_bins.length) 0 ∧
        ((m.adapt_bins data).ambient_bins.getD j dBin).min_value ≤
          ((m.adapt_bins data).ambient_bins.getD j dBin).max_value ∧
        (j + 1 < m.ambient_bins.length →
          ((m.adapt_bins data).ambient_bins.getD j dBin).max_value ≤
            ((m.adapt_bins data).ambient_bins.getD (j + 1) dBin).min_value)) :=
  ⟨mkModel_partition, binsPartition_lookup, adapt_bins_bounds⟩

/-- C1 counterexample: `m200` (two bins over `[0, 200]`) rebinned on the
4-point history `h4` (ambients 0, 10, 100, 110; 4 = 2 x bin_count, so
the rebin succeeds) yields bins `[0, 10)` and `[100, 110]`, which leave
the gap `(10, 100)` and do not cover `[0, 200]` - the partition
invariant fails after a successful rebin. -/
theorem bins_partition_counterexample :
    m200.ambient_bins.length * 2 ≤ h4.length ∧
    ¬ binsPartition (m200.adapt_bins h4).ambient_bins 0 200 := by
  constructor
  · with_unfolding_all decide
  · unfold binsPartition
    with_unfolding_all decide

theorem mkModel_getD_some (lo hi : Int) (bc : Nat) (tw rw2 aw : Rat)
    (h : ¬ (bc = 0 ∨ lo ≥ hi)) :
    mkModel lo hi bc tw rw2 aw = some ((mkModel lo hi bc tw rw2 aw).getD dModel) := by
  unfold mkModel
  rw [if_neg h]
  rfl

theorem bins_partition_witness :
    binsPartition m200.ambient_bins 0 200 ∧
    (findBinIdx m100.ambient_bins 42).isSome = true ∧
    findBinIdx m100.ambient_bins (-3) = none ∧
    ((m200.adapt_bins h4).ambient_bins.getD 0 dBin).max_value ≤
      ((m200.adapt_bins h4).ambient_bins.getD 1 dBin).min_value := by
  refine ⟨?_, ?_, ?_, ?_⟩
  · exact bins_partition_construct_rebin.1 0 200 2 (3/10) (2/5) (3/10) m200
      (mkModel_getD_some 0 200 2 (3/10) (2/5) (3/10) (by decide))
  · exact (bins_partition_construct_rebin.2.1 m100.ambient_bins 0 100 42
      (by unfold binsPartition; with_unfolding_all decide)).1 (by with_unfolding_all decide)
  · exact (bins_partition_construct_rebin.2.1 m100.ambient_bins 0 100 (-3)
      (by unfold binsPartition; with_unfolding_all decide)).2 (by with_unfolding_all decide)
  · exact (bins_partition_construct_rebin.2.2 m200 h4 (by with_unfolding_all decide) 0
      (by with_unfolding_all decide)).2.2 (by with_unfolding_all decide)
